import Mathlib

/-!
Shallow embedding of the polyscope position tracker core
(`src/api/polymarket_api.js` and `src/api/index.js`).

Numbers that are JavaScript floats are modelled as rationals (`ℚ`);
timestamps (`Date.now()` values) are modelled as integers (`ℤ`).
Asynchronous methods become pure state-passing functions; the
single-threaded JavaScript event loop means each synchronous section of
a method runs atomically, which the step functions below reflect.
-/

namespace Polyscope

/-! ## PnL calculation (`PolymarketAPI.calculatePnL`) -/

/-- Result object of `PolymarketAPI.calculatePnL`.  The source returns
`pnlPercent` as a decimal string via `toFixed(2)`; here it is kept as the
underlying rational, with `round2` below modelling the 2-decimal rounding. -/
structure PnLResult where
  pnl : ℚ
  pnlPercent : ℚ
  currentValue : ℚ
  entryValue : ℚ
deriving DecidableEq, Repr

/-- JavaScript `toLowerCase` / `toUpperCase`, as a character-wise map on
the string's characters (the source only applies them to ASCII data). -/
def lowerStr (s : String) : String := ⟨s.data.map Char.toLower⟩

/-- See `lowerStr`. -/
def upperStr (s : String) : String := ⟨s.data.map Char.toUpper⟩

/-- `PolymarketAPI.calculatePnL(entryPrice, currentPrice, position, amount)`. -/
def calculatePnL (entryPrice currentPrice : ℚ) (position : String) (amount : ℚ) :
    PnLResult :=
  if lowerStr position = "yes" then
    let shares := amount / entryPrice
    let currentValue := shares * currentPrice
    let pnl := currentValue - amount
    { pnl := pnl
      pnlPercent := pnl / amount * 100
      currentValue := currentValue
      entryValue := amount }
  else
    let entryNoPrice := 1 - entryPrice
    let currentNoPrice := 1 - currentPrice
    let shares := amount / entryNoPrice
    let currentValue := shares * currentNoPrice
    let pnl := currentValue - amount
    { pnl := pnl
      pnlPercent := pnl / amount * 100
      currentValue := currentValue
      entryValue := amount }

/-- Rounding to two decimal places, modelling JavaScript `toFixed(2)`
on the values appearing in the spec (none of which are ties). -/
def round2 (q : ℚ) : ℚ := (round (q * 100) : ℤ) / 100

/-! ## Circuit breaker (`CircuitBreaker` in `polymarket_api.js`) -/

inductive BreakerState where
  | CLOSED
  | OPEN
  | HALF_OPEN
deriving DecidableEq, Repr

/-- State of one `CircuitBreaker` instance. -/
structure CircuitBreaker where
  threshold : ℕ
  timeout : ℤ
  state : BreakerState
  failures : ℕ
  lastFailure : Option ℤ
  nextAttempt : ℤ
deriving DecidableEq, Repr

/-- The `CircuitBreaker` constructor (`new CircuitBreaker(threshold, timeout)`
at time `now`). -/
def CircuitBreaker.init (threshold : ℕ) (timeout now : ℤ) : CircuitBreaker :=
  { threshold := threshold
    timeout := timeout
    state := .CLOSED
    failures := 0
    lastFailure := none
    nextAttempt := now }

/-- `canExecute()`, called at time `now`; returns the boolean result and the
(possibly updated) breaker. -/
def CircuitBreaker.canExecute (cb : CircuitBreaker) (now : ℤ) :
    Bool × CircuitBreaker :=
  match cb.state with
  | .CLOSED => (true, cb)
  | .OPEN =>
      if cb.nextAttempt ≤ now then (true, { cb with state := .HALF_OPEN })
      else (false, cb)
  | .HALF_OPEN => (true, cb)

/-- `recordSuccess()`. -/
def CircuitBreaker.recordSuccess (cb : CircuitBreaker) : CircuitBreaker :=
  if cb.state = .HALF_OPEN then
    { cb with failures := 0, state := .CLOSED }
  else
    { cb with failures := 0 }

/-- `recordFailure()`, called at time `now`. -/
def CircuitBreaker.recordFailure (cb : CircuitBreaker) (now : ℤ) :
    CircuitBreaker :=
  if cb.threshold ≤ cb.failures + 1 then
    { cb with
      failures := cb.failures + 1
      lastFailure := some now
      state := .OPEN
      nextAttempt := now + cb.timeout }
  else
    { cb with failures := cb.failures + 1, lastFailure := some now }

/-- A sequence of `recordFailure()` calls at the given times. -/
def CircuitBreaker.recordFailures (cb : CircuitBreaker) (ts : List ℤ) :
    CircuitBreaker :=
  ts.foldl CircuitBreaker.recordFailure cb

/-! ## The retrying executor (`PolymarketAPI.request`) -/

/-- Planned outcome of one `executeRequest` attempt: either a parsed
response value, or a rejection carrying the HTTP status code when the
rejection came from an HTTP `>= 400` response (`none` models a network
error or timeout, which carry no `statusCode`). -/
inductive ReqOutcome where
  | success (v : ℕ)
  | failure (statusCode : Option ℕ)
deriving DecidableEq, Repr

/-- Result of `PolymarketAPI.request`: a resolved value, a thrown request
error (with its status code when present), or the circuit-open fast-fail. -/
inductive ReqResult where
  | ok (v : ℕ)
  | err (statusCode : Option ℕ)
  | circuitOpen
deriving DecidableEq, Repr

/-- The `error.statusCode === 400 || 401 || 403` non-retry test in
`PolymarketAPI.request`. -/
def nonRetryable (sc : Option ℕ) : Bool :=
  sc = some 400 ∨ sc = some 401 ∨ sc = some 403

/-- The retry loop of `PolymarketAPI.request`.  `outcomes i` is the planned
outcome of attempt `i` and `times i` the time at which it fails (used by
`recordFailure`); `remaining` counts the retries still allowed after the
current attempt (initially `maxRetries`; it is the recursion argument, so
it comes first).  Returns the result, the final breaker state, and the
number of attempts actually executed. -/
def requestLoop (outcomes : ℕ → ReqOutcome) (times : ℕ → ℤ) :
    (remaining : ℕ) → (cb : CircuitBreaker) → (attempt : ℕ) →
    ReqResult × CircuitBreaker × ℕ
  | 0, cb, attempt =>
    match outcomes attempt with
    | .success v => (.ok v, cb.recordSuccess, 1)
    | .failure sc =>
      if nonRetryable sc then (.err sc, cb, 1)
      else (.err sc, cb.recordFailure (times attempt), 1)
  | r + 1, cb, attempt =>
    match outcomes attempt with
    | .success v => (.ok v, cb.recordSuccess, 1)
    | .failure sc =>
      if nonRetryable sc then (.err sc, cb, 1)
      else
        let next := requestLoop outcomes times r
          (cb.recordFailure (times attempt)) (attempt + 1)
        (next.1, next.2.1, next.2.2 + 1)

/-- `PolymarketAPI.request`: circuit-breaker check, then the retry loop. -/
def request (outcomes : ℕ → ReqOutcome) (times : ℕ → ℤ)
    (cb : CircuitBreaker) (now : ℤ) (maxRetries : ℕ) :
    ReqResult × CircuitBreaker × ℕ :=
  let gate := cb.canExecute now
  if gate.1 then requestLoop outcomes times maxRetries gate.2 0
  else (.circuitOpen, gate.2, 0)

/-! ## Association-list model of JavaScript `Map` (and of a directory) -/

/-- `Map.get` — the most recent binding of a key wins. -/
def lookupA {β : Type} : List (String × β) → String → Option β
  | [], _ => none
  | (k, v) :: rest, key => if k = key then some v else lookupA rest key

/-- `Map.set` — prepend, shadowing any earlier binding. -/
def setA {β : Type} (l : List (String × β)) (k : String) (v : β) :
    List (String × β) :=
  (k, v) :: l

/-- `Map.delete` — drop every binding of the key. -/
def removeA {β : Type} (l : List (String × β)) (k : String) :
    List (String × β) :=
  l.filter (fun kv => kv.1 ≠ k)

/-! ## Alert manager (`AlertManager` in `index.js`) -/

/-- The `(type, severity)` part of an alert object, as used by the
deduplication fingerprint. -/
structure AlertInfo where
  type : String
  severity : String
deriving DecidableEq, Repr

/-- The part of a position record that `generateFingerprint` reads. -/
structure PosRef where
  market : String
  market_id : Option String
deriving DecidableEq, Repr

/-- `position.market_id || position.market` (JavaScript falsy test: an
absent or empty `market_id` falls back to `market`). -/
def marketKeyOf (p : PosRef) : String :=
  match p.market_id with
  | some s => if s = "" then p.market else s
  | none => p.market

/-- `AlertManager.generateFingerprint`.  The source MD5-hashes the string
`marketKey:type:severity`; the hash is modelled by the (injective) data
string itself, since only equality of fingerprints is ever used. -/
def generateFingerprint (p : PosRef) (a : AlertInfo) : String :=
  marketKeyOf p ++ ":" ++ a.type ++ ":" ++ a.severity

/-- Mutable state of an `AlertManager`: the dedup map and the window. -/
structure AlertManagerState where
  alertHistory : List (String × ℤ)
  deduplicationWindow : ℤ
deriving DecidableEq, Repr

/-- `AlertManager.shouldSendAlert` at time `now`: returns
`(shouldSend, fingerprint)` and the updated manager state.  The JavaScript
`!lastSent` test is falsy, so a recorded timestamp of `0` also counts as
"never sent". -/
def shouldSendAlert (s : AlertManagerState) (p : PosRef) (a : AlertInfo)
    (now : ℤ) : (Bool × String) × AlertManagerState :=
  let fp := generateFingerprint p a
  match lookupA s.alertHistory fp with
  | none =>
    ((true, fp), { s with alertHistory := setA s.alertHistory fp now })
  | some lastSent =>
    if lastSent = 0 ∨ now - lastSent > s.deduplicationWindow then
      ((true, fp), { s with alertHistory := setA s.alertHistory fp now })
    else
      ((false, fp), s)

/-- Observable outcome of `LivePositionTracker.processAlerts`: the alerts
actually sent, the number of `recordAlert` calls (AlertRecords appended)
and of `webhookDispatcher.dispatch` calls, and the final manager state. -/
structure ProcessOutcome where
  sent : List AlertInfo
  records : ℕ
  dispatches : ℕ
  state : AlertManagerState
deriving DecidableEq, Repr

/-- `LivePositionTracker.processAlerts`: for each raw alert, consult
`shouldSendAlert`; on `true`, record one AlertRecord and dispatch one
webhook. -/
def processAlerts (s : AlertManagerState) (p : PosRef)
    (alerts : List AlertInfo) (now : ℤ) : ProcessOutcome :=
  alerts.foldl
    (fun acc alert =>
      let r := shouldSendAlert acc.state p alert now
      if r.1.1 then
        { sent := acc.sent ++ [alert]
          records := acc.records + 1
          dispatches := acc.dispatches + 1
          state := r.2 }
      else
        { acc with state := r.2 })
    { sent := [], records := 0, dispatches := 0, state := s }

/-! ## Stampede-protected cache (`PolymarketAPI.getCached`) -/

/-- One cache entry (`{ data, timestamp }`). -/
structure CacheEntry where
  data : ℕ
  timestamp : ℤ
deriving DecidableEq, Repr

/-- The cache and pending-requests maps of a `PolymarketAPI` instance.
`pendingRequests` maps a key to the identifier of the promise all waiters
share; `nextPromiseId` names fresh promises; `fetchCount` counts how many
times `fetchFn` has been invoked. -/
structure CacheState where
  cache : List (String × CacheEntry)
  pendingRequests : List (String × ℕ)
  nextPromiseId : ℕ
  fetchCount : ℕ
deriving DecidableEq, Repr

/-- What a `getCached` caller receives: a fresh cached value, the shared
pending promise, or a newly started fetch (identified by its promise id). -/
inductive CachedResult where
  | value (d : ℕ)
  | awaitPending (id : ℕ)
  | startFetch (id : ℕ)
deriving DecidableEq, Repr

/-- The synchronous section of `PolymarketAPI.getCached(key, fetchFn, ttl)`
run at time `now` (cache check, pending check, then mark pending and invoke
`fetchFn`); it runs atomically on the JavaScript event loop. -/
def getCached (s : CacheState) (key : String) (ttl now : ℤ) :
    CachedResult × CacheState :=
  let fresh : Option ℕ :=
    match lookupA s.cache key with
    | some e => if now - e.timestamp < ttl then some e.data else none
    | none => none
  match fresh with
  | some d => (.value d, s)
  | none =>
    match lookupA s.pendingRequests key with
    | some pid => (.awaitPending pid, s)
    | none =>
      (.startFetch s.nextPromiseId,
        { s with
          pendingRequests := setA s.pendingRequests key s.nextPromiseId
          nextPromiseId := s.nextPromiseId + 1
          fetchCount := s.fetchCount + 1 })

/-- The continuation `getCached` attaches to the fetch promise: on success
cache value and timestamp and clear pending; on failure clear pending and
re-throw (the error reaches every waiter of the shared promise). -/
def fetchSettle (s : CacheState) (key : String) (outcome : Except String ℕ)
    (now : ℤ) : CacheState :=
  match outcome with
  | .ok d =>
    { s with
      cache := setA s.cache key ⟨d, now⟩
      pendingRequests := removeA s.pendingRequests key }
  | .error _ =>
    { s with pendingRequests := removeA s.pendingRequests key }

/-- A sequence of `getCached` calls for one key at the given times, with no
intervening promise settlement (i.e. concurrent callers). -/
def callSeq (key : String) (ttl : ℤ) :
    CacheState → List ℤ → List CachedResult × CacheState
  | s, [] => ([], s)
  | s, t :: ts =>
    let r := getCached s key ttl t
    let rest := callSeq key ttl r.2 ts
    (r.1 :: rest.1, rest.2)

/-! ## Durable writes (`savePositions` / `persistHistory`) and crashes -/

/-- A directory: file path to file content (content as a character list). -/
abbrev FS := List (String × List Char)

/-- The file-system operations the two persistence routines perform.
`rename` is the POSIX atomic replace. -/
inductive FsOp where
  | write (path : String) (content : List Char)
  | rename (src dst : String)
deriving DecidableEq, Repr

/-- Effect of one completed operation. -/
def applyOp (fs : FS) : FsOp → FS
  | .write p c => setA fs p c
  | .rename src dst =>
    match lookupA fs src with
    | some c => setA (removeA fs src) dst c
    | none => fs

/-- Every file-system state observable if the process is killed at any
point during the op sequence: before each op, mid-write (a `write` may leave
any prefix of its content on disk; a `rename` is atomic and has no
intermediate state), and after completion. -/
def crashStates : FS → List FsOp → List FS
  | fs, [] => [fs]
  | fs, op :: rest =>
    let mid : List FS :=
      match op with
      | .write p c =>
        (List.range (c.length + 1)).map (fun k => setA fs p (c.take k))
      | .rename _ _ => []
    fs :: mid ++ crashStates (applyOp fs op) rest

/-- The unique temp-file name `positionsPath + '.tmp.' + stamp` that
`LivePositionTracker.savePositions` writes before renaming. -/
def tmpName (target stamp : String) : String := target ++ ".tmp." ++ stamp

/-- The write sequence of `LivePositionTracker.savePositions`: serialize to
the temp file, then rename over the target. -/
def savePositionsOps (target stamp : String) (content : List Char) :
    List FsOp :=
  [.write (tmpName target stamp) content, .rename (tmpName target stamp) target]

/-- The write sequence of `AlertManager.persistHistory`: a single direct
`fs.writeFile` to the history path — no temp file, no rename. -/
def persistHistoryOps (target : String) (content : List Char) : List FsOp :=
  [.write target content]

/-! ## Position records (`LivePositionTracker` in `index.js`) -/

/-- A tracked position record — the fields of the persisted position
objects that the claims concern.  Timestamps are integers; market-data
fields filled in by a refresh are `Option`s (absent on a fresh record). -/
structure Position where
  id : String
  market : String
  position : String
  amount : ℚ
  entry_odds : ℚ
  entry_price : ℚ
  status : String
  update_error : Option String
  last_updated : ℤ
  current_price : Option ℚ
  unrealized_pnl : Option ℚ
  exit_price : Option ℚ
  exit_odds : Option ℚ
  realized_pnl : Option ℚ
  realized_pnl_pct : Option ℚ
deriving DecidableEq, Repr

/-- Input of `LivePositionTracker.addPosition`. -/
structure NewPositionData where
  market : String
  position : String
  amount : ℚ
  entry_odds : ℚ
  entry_price : Option ℚ
deriving DecidableEq, Repr

/-- `positionData.entry_price || parseFloat(positionData.entry_odds) / 100`
(JavaScript falsy: an absent or zero `entry_price` falls back to the odds). -/
def entryPriceOf (pd : NewPositionData) : ℚ :=
  match pd.entry_price with
  | some p => if p = 0 then pd.entry_odds / 100 else p
  | none => pd.entry_odds / 100

/-- `LivePositionTracker.addPosition` on an already-loaded positions list;
`genId` stands for the generated `pos_<time>_<random>` id.  Returns the
saved list and the new record. -/
def addPosition (ps : List Position) (pd : NewPositionData) (genId : String)
    (now : ℤ) : List Position × Position :=
  let newPosition : Position :=
    { id := genId
      market := pd.market
      position := upperStr pd.position
      amount := pd.amount
      entry_odds := pd.entry_odds
      entry_price := entryPriceOf pd
      status := "active"
      update_error := none
      last_updated := now
      current_price := none
      unrealized_pnl := none
      exit_price := none
      exit_odds := none
      realized_pnl := none
      realized_pnl_pct := none }
  (ps ++ [newPosition], newPosition)

/-- Input of `LivePositionTracker.closePosition`. -/
structure ExitData where
  exit_price : Option ℚ
  exit_odds : ℚ
deriving DecidableEq, Repr

/-- `exitData.exit_price || exitData.exit_odds / 100` (falsy fallback). -/
def exitPriceOf (ed : ExitData) : ℚ :=
  match ed.exit_price with
  | some p => if p = 0 then ed.exit_odds / 100 else p
  | none => ed.exit_odds / 100

/-- The closed record `closePosition` writes back over the found position:
`realized_pnl = (exitPrice - entry_price) * amount * (position === 'YES' ?
1 : -1)` and `realized_pnl_pct = pnl / amount * 100`. -/
def closedRecord (p : Position) (ed : ExitData) (now : ℤ) : Position :=
  let exitPrice := exitPriceOf ed
  let pnl := (exitPrice - p.entry_price) * p.amount *
    (if p.position = "YES" then 1 else -1)
  { p with
    status := "closed"
    exit_price := some exitPrice
    exit_odds := some ed.exit_odds
    realized_pnl := some pnl
    realized_pnl_pct := some (pnl / p.amount * 100)
    last_updated := now }

/-- The `findIndex`-then-assign of `closePosition`: replace the first
position matching the market with `status === 'active'`, error if none. -/
def closeFirst (market : String) (ed : ExitData) (now : ℤ) :
    List Position → Except String (List Position)
  | [] => .error ("Active position not found for market: " ++ market)
  | p :: rest =>
    if p.market = market ∧ p.status = "active" then
      .ok (closedRecord p ed now :: rest)
    else
      (closeFirst market ed now rest).map (fun l => p :: l)

/-- `LivePositionTracker.closePosition` on an already-loaded list. -/
def closePosition (ps : List Position) (market : String) (ed : ExitData)
    (now : ℤ) : Except String (List Position) :=
  closeFirst market ed now ps

/-- The market data a successful per-position refresh merges into the
record (the subset of fields the claims concern). -/
structure UpdateData where
  current_price : ℚ
  unrealized_pnl : ℚ
deriving DecidableEq, Repr

/-- `LivePositionTracker.performUpdate`: on success the record is the
spread `{...position, <market data>, last_updated}`; on any error the
catch block returns `{...position, update_error, last_updated}`.  The
`status` field is never written. -/
def performUpdate (p : Position) (outcome : Except String UpdateData)
    (now : ℤ) : Position :=
  match outcome with
  | .ok d =>
    { p with
      current_price := some d.current_price
      unrealized_pnl := some d.unrealized_pnl
      last_updated := now }
  | .error e =>
    { p with update_error := some e, last_updated := now }

/-- `LivePositionTracker.updateAllPositions` on an already-loaded list:
refresh the active positions (the fixed-size batching with `Promise.all`
preserves list order, so the waves concatenate to a plain map), then append
the non-active positions unchanged.  `refresh` gives each position's
externally-determined outcome. -/
def updateAllPositions (ps : List Position)
    (refresh : Position → Except String UpdateData) (now : ℤ) :
    List Position :=
  (ps.filter (fun p => p.status = "active")).map
      (fun p => performUpdate p (refresh p) now) ++
    ps.filter (fun p => ¬ p.status = "active")

/-! ## Fuzzy market resolution (`PolymarketAPI.findMarketByKeywords`)

Text is modelled as character lists so that substring containment
(JavaScript `String.includes`) is `List.IsInfix`. -/

/-- The fields of a market object that `findMarketByKeywords` reads.
`liquidityNum`/`volume24hr` model `parseFloat(field || 0)` — an absent
field reads as 0. -/
structure Market where
  question : Option (List Char)
  description : Option (List Char)
  archived : Bool
  closed : Bool
  acceptingOrders : Bool
  liquidityNum : Option ℚ
  volume24hr : Option ℚ
deriving DecidableEq, Repr

/-- `toLowerCase` on a character list. -/
def lcChars (l : List Char) : List Char := l.map Char.toLower

/-- Worker for `splitWs`: accumulate the current chunk (reversed). -/
def splitWsAux : List Char → List Char → List (List Char)
  | [], acc => [acc.reverse]
  | c :: rest, acc =>
    if c.isWhitespace then acc.reverse :: splitWsAux rest []
    else splitWsAux rest (c :: acc)

/-- `split(/\s+/)` up to empty chunks, which the length filter in
`searchTermsOf` removes in both JavaScript and this model. -/
def splitWs (l : List Char) : List (List Char) := splitWsAux l []

/-- `searchQuery.toLowerCase().split(/\s+/).filter(t => t.length > 2)`. -/
def searchTermsOf (query : List Char) : List (List Char) :=
  (splitWs (lcChars query)).filter (fun t => 2 < t.length)

/-- `field?.toLowerCase().includes(term)` — false when the field is null. -/
def optHas (o : Option (List Char)) (t : List Char) : Bool :=
  match o with
  | some s => decide (t <:+: lcChars s)
  | none => false

/-- The combined text
`` `${market.question || ''} ${market.description || ''}`.toLowerCase() ``. -/
def textOf (m : Market) : List Char :=
  lcChars ((m.question.getD []) ++ ' ' :: (m.description.getD []))

/-- Per-term score in `findMarketByKeywords`: question +10, else
description +5, else combined-text partial match +2. -/
def termScore (m : Market) (t : List Char) : ℕ :=
  if optHas m.question t then 10
  else if optHas m.description t then 5
  else if decide (t <:+: textOf m) then 2
  else 0

/-- The per-term score as the spec words it (refinement comparison
definition): identical to `termScore` except the combined-text partial
match scores +1. -/
def termScoreSpec (m : Market) (t : List Char) : ℕ :=
  if optHas m.question t then 10
  else if optHas m.description t then 5
  else if decide (t <:+: textOf m) then 1
  else 0

/-- The term-independent bonuses: accepting-orders +15, not-closed +10,
cumulative liquidity tiers (+5 over 10k, +10 over 50k, +15 over 100k) and
24h-volume tiers (+3 over 1k, +5 over 10k). -/
def bonusScore (m : Market) : ℕ :=
  (if m.acceptingOrders then 15 else 0) +
  (if !m.closed then 10 else 0) +
  (if (10000 : ℚ) < m.liquidityNum.getD 0 then 5 else 0) +
  (if (50000 : ℚ) < m.liquidityNum.getD 0 then 10 else 0) +
  (if (100000 : ℚ) < m.liquidityNum.getD 0 then 15 else 0) +
  (if (1000 : ℚ) < m.volume24hr.getD 0 then 3 else 0) +
  (if (10000 : ℚ) < m.volume24hr.getD 0 then 5 else 0)

/-- Score of one candidate market for the given search terms. -/
def scoreMarket (m : Market) (terms : List (List Char)) : ℕ :=
  terms.foldl (fun s t => s + termScore m t) 0 + bonusScore m

/-- `scoreMarket` with the spec's per-term score. -/
def scoreMarketSpec (m : Market) (terms : List (List Char)) : ℕ :=
  terms.foldl (fun s t => s + termScoreSpec m t) 0 + bonusScore m

/-- Loop body of `findMarketByKeywords`: skip archived candidates (unless
`includeArchived`), keep the strictly best score (first maximum wins). -/
def findBestStep (terms : List (List Char)) (includeArchived : Bool)
    (best : Option Market × ℕ) (m : Market) : Option Market × ℕ :=
  if m.archived && !includeArchived then best
  else if best.2 < scoreMarket m terms then (some m, scoreMarket m terms)
  else best

/-- See `findBestStep`, with the spec's scoring. -/
def findBestStepSpec (terms : List (List Char)) (includeArchived : Bool)
    (best : Option Market × ℕ) (m : Market) : Option Market × ℕ :=
  if m.archived && !includeArchived then best
  else if best.2 < scoreMarketSpec m terms then
    (some m, scoreMarketSpec m terms)
  else best

/-- The candidate scan of `findMarketByKeywords`. -/
def findBest (terms : List (List Char)) (includeArchived : Bool)
    (markets : List Market) : Option Market × ℕ :=
  markets.foldl (findBestStep terms includeArchived) (none, 0)

/-- See `findBest`, with the spec's scoring. -/
def findBestSpec (terms : List (List Char)) (includeArchived : Bool)
    (markets : List Market) : Option Market × ℕ :=
  markets.foldl (findBestStepSpec terms includeArchived) (none, 0)

/-- `options.minScore || 10` (JavaScript falsy default). -/
def resolveMinScore : Option ℕ → ℕ
  | none => 10
  | some k => if k = 0 then 10 else k

/-- `PolymarketAPI.findMarketByKeywords` over an already-fetched market
list: best match if its score reaches the minimum, else no match. -/
def findMarketByKeywords (query : List Char) (markets : List Market)
    (minScore : Option ℕ) (includeArchived : Bool) : Option Market :=
  match (findBest (searchTermsOf query) includeArchived markets).1 with
  | some m =>
    if resolveMinScore minScore ≤
        (findBest (searchTermsOf query) includeArchived markets).2 then
      some m
    else none
  | none => none

/-- `findMarketByKeywords` as the spec words the scoring. -/
def findMarketByKeywordsSpec (query : List Char) (markets : List Market)
    (minScore : Option ℕ) (includeArchived : Bool) : Option Market :=
  match (findBestSpec (searchTermsOf query) includeArchived markets).1 with
  | some m =>
    if resolveMinScore minScore ≤
        (findBestSpec (searchTermsOf query) includeArchived markets).2 then
      some m
    else none
  | none => none

/-! ## Helper lemmas -/

theorem lowerStr_YES : lowerStr "YES" = "yes" := by decide

theorem lowerStr_NO : lowerStr "NO" = "no" := by decide

/-- Iterating `recordFailure` while the count stays strictly below the
threshold keeps the breaker CLOSED and just counts the failures. -/
theorem recordFailures_below (ts : List ℤ) :
    ∀ cb : CircuitBreaker, cb.state = .CLOSED →
      cb.failures + ts.length < cb.threshold →
      (cb.recordFailures ts).state = .CLOSED ∧
      (cb.recordFailures ts).failures = cb.failures + ts.length ∧
      (cb.recordFailures ts).threshold = cb.threshold ∧
      (cb.recordFailures ts).timeout = cb.timeout := by
  induction ts with
  | nil =>
    intro cb hst _
    simp [CircuitBreaker.recordFailures, hst]
  | cons t ts ih =>
    intro cb hst hlt
    have hne : ¬ cb.threshold ≤ cb.failures + 1 := by
      simp only [List.length_cons] at hlt
      omega
    have hstep : cb.recordFailures (t :: ts) =
        (cb.recordFailure t).recordFailures ts := rfl
    have hrf : cb.recordFailure t =
        { cb with failures := cb.failures + 1, lastFailure := some t } := by
      simp [CircuitBreaker.recordFailure, hne]
    have hmain := ih (cb.recordFailure t) (by rw [hrf]; exact hst)
      (by
        rw [hrf]
        show cb.failures + 1 + ts.length < cb.threshold
        simp only [List.length_cons] at hlt
        omega)
    rw [hstep]
    simp only [List.length_cons]
    refine ⟨hmain.1, ?_, ?_, ?_⟩
    · rw [hmain.2.1, hrf]
      show cb.failures + 1 + ts.length = cb.failures + (ts.length + 1)
      omega
    · rw [hmain.2.2.1, hrf]
    · rw [hmain.2.2.2, hrf]

theorem lookupA_setA_self {β : Type} (l : List (String × β)) (k : String)
    (v : β) : lookupA (setA l k v) k = some v := by
  simp [setA, lookupA]

theorem lookupA_setA_ne {β : Type} (l : List (String × β)) (k k' : String)
    (v : β) (h : k ≠ k') : lookupA (setA l k v) k' = lookupA l k' := by
  simp [setA, lookupA, h]

theorem lookupA_removeA_self {β : Type} (l : List (String × β)) (k : String) :
    lookupA (removeA l k) k = none := by
  induction l with
  | nil => simp [removeA, lookupA]
  | cons kv rest ih =>
    by_cases h : kv.1 = k
    · simpa [removeA, List.filter, h] using ih
    · simpa [removeA, List.filter, h, lookupA] using ih

/-- The temp path `target ++ ".tmp." ++ stamp` never equals the target. -/
theorem tmpName_ne (target stamp : String) : tmpName target stamp ≠ target := by
  intro h
  have h2 := congrArg String.length h
  rw [tmpName] at h2
  simp [String.length_append] at h2
  have h5 : (".tmp." : String).length = 5 := rfl
  omega

/-- While a key is pending (and not freshly cached), every `getCached` call
joins the same pending promise and changes nothing. -/
theorem callSeq_pending (key : String) (ttl : ℤ) (ts : List ℤ) :
    ∀ (s : CacheState) (pid : ℕ),
      lookupA s.cache key = none → lookupA s.pendingRequests key = some pid →
      callSeq key ttl s ts =
        (ts.map (fun _ => CachedResult.awaitPending pid), s) := by
  induction ts with
  | nil => intro s pid _ _; rfl
  | cons t ts ih =>
    intro s pid hc hp
    have hcall : getCached s key ttl t = (.awaitPending pid, s) := by
      simp [getCached, hc, hp]
    simp [callSeq, hcall, ih s pid hc hp]

/-- Chunks produced by the whitespace splitter contain no whitespace. -/
theorem splitWsAux_no_ws (l : List Char) :
    ∀ (acc : List Char), (∀ c ∈ acc, c.isWhitespace = false) →
      ∀ t ∈ splitWsAux l acc, ∀ c ∈ t, c.isWhitespace = false := by
  induction l with
  | nil =>
    intro acc hacc t ht c hc
    simp only [splitWsAux, List.mem_singleton] at ht
    subst ht
    exact hacc c (List.mem_reverse.mp hc)
  | cons d rest ih =>
    intro acc hacc t ht c hc
    by_cases hd : d.isWhitespace = true
    · rw [splitWsAux, if_pos hd] at ht
      rcases List.mem_cons.mp ht with rfl | hmem
      · exact hacc c (List.mem_reverse.mp hc)
      · exact ih [] (by intro c' hc'; cases hc') t hmem c hc
    · rw [splitWsAux, if_neg hd] at ht
      refine ih (d :: acc) ?_ t ht c hc
      intro c' hc'
      rcases List.mem_cons.mp hc' with rfl | h
      · simpa using hd
      · exact hacc _ h

/-- Search terms are nonempty and contain no space character. -/
theorem searchTerms_clean (query : List Char) :
    ∀ t ∈ searchTermsOf query, t ≠ [] ∧ ' ' ∉ t := by
  intro t ht
  rw [searchTermsOf] at ht
  have hmem := List.mem_filter.mp ht
  have hlen : 2 < t.length := by simpa using hmem.2
  have hws := splitWsAux_no_ws (lcChars query) []
    (by intro c hc; cases hc) t hmem.1
  constructor
  · intro h
    subst h
    simp at hlen
  · intro hsp
    exact absurd (hws ' ' hsp) (by decide)

/-- A contiguous substring of `a ++ x :: b` that avoids `x` lies wholly
inside `a` or wholly inside `b`. -/
theorem middle_split {t a b : List Char} {x : Char} (hx : x ∉ t)
    (h : t <:+: a ++ x :: b) : t <:+: a ∨ t <:+: b := by
  obtain ⟨u, v, huv⟩ := h
  rw [List.append_assoc] at huv
  rcases List.append_eq_append_iff.mp huv with ⟨w, hw1, hw2⟩ | ⟨w, hw1, hw2⟩
  · rcases List.append_eq_append_iff.mp hw2 with ⟨y, hy1, hy2⟩ | ⟨y, hy1, hy2⟩
    · left
      exact ⟨u, y, by rw [hw1, hy1, List.append_assoc]⟩
    · cases y with
      | nil =>
        left
        exact ⟨u, [], by simp [hw1, hy1]⟩
      | cons c y2 =>
        exfalso
        apply hx
        have hcx : c = x := by
          rw [List.cons_append] at hy2
          injection hy2 with h1 _
          exact h1.symm
        rw [hy1, hcx]
        exact List.mem_append_right _ (List.mem_cons_self _ _)
  · cases w with
    | nil =>
      rw [List.append_nil] at hw1
      simp only [List.nil_append] at hw2
      cases t with
      | nil => left; exact ⟨[], a, by simp⟩
      | cons c t2 =>
        exfalso
        apply hx
        have hcx : x = c := by
          rw [List.cons_append] at hw2
          injection hw2
        rw [hcx]
        exact List.mem_cons_self _ _
    | cons c w2 =>
      right
      rw [List.cons_append] at hw2
      have hb : b = w2 ++ (t ++ v) := by
        injection hw2
      exact ⟨w2, v, by rw [hb, List.append_assoc]⟩

/-- On a nonempty, space-free term the source's per-term score equals the
spec's: the combined text is `question ++ ' ' :: description`, so a term
matching it must already match the question or the description, making the
partial-match branch (where the two differ, +2 against +1) unreachable. -/
theorem termScore_eq_spec (m : Market) (t : List Char) (hne : t ≠ [])
    (hsp : ' ' ∉ t) : termScore m t = termScoreSpec m t := by
  rw [termScore, termScoreSpec]
  cases h1 : optHas m.question t with
  | true => simp [h1]
  | false =>
    cases h2 : optHas m.description t with
    | true => simp [h1, h2]
    | false =>
      suffices h3 : ¬ (t <:+: textOf m) by simp [h1, h2, h3]
      intro hin
      have hlow : Char.toLower ' ' = ' ' := by decide
      have htext : textOf m =
          lcChars (m.question.getD []) ++ ' ' ::
            lcChars (m.description.getD []) := by
        rw [textOf]
        unfold lcChars
        rw [List.map_append, List.map_cons, hlow]
      rw [htext] at hin
      rcases middle_split hsp hin with hq | hd
      · cases hq2 : m.question with
        | none =>
          rw [hq2] at hq
          exact hne (List.infix_nil.mp (by simpa [lcChars] using hq))
        | some q =>
          rw [hq2] at h1 hq
          rw [optHas] at h1
          simp only [decide_eq_false_iff_not] at h1
          exact h1 (by simpa using hq)
      · cases hd2 : m.description with
        | none =>
          rw [hd2] at hd
          exact hne (List.infix_nil.mp (by simpa [lcChars] using hd))
        | some d =>
          rw [hd2] at h2 hd
          rw [optHas] at h2
          simp only [decide_eq_false_iff_not] at h2
          exact h2 (by simpa using hd)

/-- Folding pointwise-equal per-term scores gives equal sums. -/
theorem foldl_score_eq (m : Market) :
    ∀ (ts : List (List Char)) (init : ℕ),
      (∀ t ∈ ts, termScore m t = termScoreSpec m t) →
      ts.foldl (fun s t => s + termScore m t) init =
        ts.foldl (fun s t => s + termScoreSpec m t) init := by
  intro ts
  induction ts with
  | nil => intro init _; rfl
  | cons t ts ih =>
    intro init h
    rw [List.foldl_cons, List.foldl_cons, h t (List.mem_cons_self _ _)]
    exact ih _ (fun t' ht' => h t' (List.mem_cons_of_mem _ ht'))

/-- On real search terms the source's market score equals the spec's. -/
theorem scoreMarket_eq_spec (m : Market) (query : List Char) :
    scoreMarket m (searchTermsOf query) =
      scoreMarketSpec m (searchTermsOf query) := by
  rw [scoreMarket, scoreMarketSpec]
  rw [foldl_score_eq m (searchTermsOf query) 0 ?_]
  intro t ht
  have hc := searchTerms_clean query t ht
  exact termScore_eq_spec m t hc.1 hc.2

/-- The candidate scans agree. -/
theorem findBest_eq_spec (query : List Char) (incl : Bool)
    (markets : List Market) :
    findBest (searchTermsOf query) incl markets =
      findBestSpec (searchTermsOf query) incl markets := by
  rw [findBest, findBestSpec]
  have hstep : findBestStep (searchTermsOf query) incl =
      findBestStepSpec (searchTermsOf query) incl := by
    funext best m
    rw [findBestStep, findBestStepSpec, scoreMarket_eq_spec]
  rw [hstep]

/-- The best score never decreases along the scan. -/
theorem foldl_findBest_mono (terms : List (List Char)) (incl : Bool) :
    ∀ (markets : List Market) (acc : Option Market × ℕ),
      acc.2 ≤ (markets.foldl (findBestStep terms incl) acc).2 := by
  intro markets
  induction markets with
  | nil => intro acc; exact le_refl _
  | cons m ms ih =>
    intro acc
    refine le_trans ?_ (ih (findBestStep terms incl acc m))
    rw [findBestStep]
    split
    · exact le_refl _
    · split
      · exact le_of_lt (by assumption)
      · exact le_refl _

/-- Every unskipped candidate's score is bounded by the final best score. -/
theorem foldl_findBest_ge (terms : List (List Char)) (incl : Bool) :
    ∀ (markets : List Market) (acc : Option Market × ℕ) (m : Market),
      m ∈ markets → (m.archived && !incl) = false →
      scoreMarket m terms ≤
        (markets.foldl (findBestStep terms incl) acc).2 := by
  intro markets
  induction markets with
  | nil => intro acc m hm; cases hm
  | cons m0 ms ih =>
    intro acc m hm hskip
    rcases List.mem_cons.mp hm with rfl | hmem
    · refine le_trans ?_
        (foldl_findBest_mono terms incl ms (findBestStep terms incl acc m))
      rw [findBestStep]
      simp only [hskip, Bool.false_eq_true, if_false]
      split
      · exact le_refl _
      · exact le_of_not_lt (by assumption)
    · exact ih (findBestStep terms incl acc m0) m hmem hskip

/-- Along the scan, a selected best market carries exactly its score. -/
theorem foldl_findBest_inv (terms : List (List Char)) (incl : Bool) :
    ∀ (markets : List Market) (acc : Option Market × ℕ),
      (∀ m, acc.1 = some m → acc.2 = scoreMarket m terms) →
      ∀ m, (markets.foldl (findBestStep terms incl) acc).1 = some m →
        (markets.foldl (findBestStep terms incl) acc).2 =
          scoreMarket m terms := by
  intro markets
  induction markets with
  | nil => intro acc h m hm; exact h m hm
  | cons m0 ms ih =>
    intro acc h m hm
    refine ih (findBestStep terms incl acc m0) ?_ m hm
    intro m' hm'
    have hcase : findBestStep terms incl acc m0 = acc ∨
        findBestStep terms incl acc m0 = (some m0, scoreMarket m0 terms) := by
      rw [findBestStep]
      split
      · exact Or.inl rfl
      · split
        · exact Or.inr rfl
        · exact Or.inl rfl
    rcases hcase with he | he
    · rw [he] at hm' ⊢
      exact h m' hm'
    · rw [he] at hm' ⊢
      simp only at hm'
      injection hm' with hmm
      rw [← hmm]

/-! ## Claim theorems -/

/-- C2: `calculatePnL` computes, for side YES, `shares = amount/entryPrice`,
`currentValue = shares*currentPrice`, `pnl = currentValue - amount`, and for
side NO the same formula using `(1-entryPrice)` and `(1-currentPrice)`.
On entry 0.30, current 0.40, amount 100: YES yields value 400/3 (133.33
after 2-decimal rounding) and pnl 100/3 (+33.33, PnL% +33.33); NO yields
value 600/7 (85.71) and pnl -100/7 (-14.29, PnL% -14.29). -/
theorem calculatePnL_spec :
    (∀ e c a : ℚ,
      calculatePnL e c "YES" a =
        { pnl := a / e * c - a
          pnlPercent := (a / e * c - a) / a * 100
          currentValue := a / e * c
          entryValue := a }) ∧
    (∀ e c a : ℚ,
      calculatePnL e c "NO" a =
        { pnl := a / (1 - e) * (1 - c) - a
          pnlPercent := (a / (1 - e) * (1 - c) - a) / a * 100
          currentValue := a / (1 - e) * (1 - c)
          entryValue := a }) ∧
    (calculatePnL (3/10) (2/5) "YES" 100).currentValue = 400 / 3 ∧
    round2 (calculatePnL (3/10) (2/5) "YES" 100).currentValue = 13333 / 100 ∧
    (calculatePnL (3/10) (2/5) "YES" 100).pnl = 100 / 3 ∧
    round2 (calculatePnL (3/10) (2/5) "YES" 100).pnl = 3333 / 100 ∧
    round2 (calculatePnL (3/10) (2/5) "YES" 100).pnlPercent = 3333 / 100 ∧
    (calculatePnL (3/10) (2/5) "NO" 100).currentValue = 600 / 7 ∧
    round2 (calculatePnL (3/10) (2/5) "NO" 100).currentValue = 8571 / 100 ∧
    (calculatePnL (3/10) (2/5) "NO" 100).pnl = -100 / 7 ∧
    round2 (calculatePnL (3/10) (2/5) "NO" 100).pnl = -1429 / 100 ∧
    round2 (calculatePnL (3/10) (2/5) "NO" 100).pnlPercent = -1429 / 100 := by
  have hyes : ∀ e c a : ℚ,
      calculatePnL e c "YES" a =
        { pnl := a / e * c - a
          pnlPercent := (a / e * c - a) / a * 100
          currentValue := a / e * c
          entryValue := a } := by
    intro e c a
    rw [calculatePnL, lowerStr_YES]
    simp
  have hno : ∀ e c a : ℚ,
      calculatePnL e c "NO" a =
        { pnl := a / (1 - e) * (1 - c) - a
          pnlPercent := (a / (1 - e) * (1 - c) - a) / a * 100
          currentValue := a / (1 - e) * (1 - c)
          entryValue := a } := by
    intro e c a
    rw [calculatePnL, lowerStr_NO]
    rw [if_neg (by decide)]
  refine ⟨hyes, hno, ?_, ?_, ?_, ?_, ?_, ?_, ?_, ?_, ?_, ?_⟩ <;>
    simp only [hyes, hno] <;> norm_num [round2, round_eq]

/-- C4: starting CLOSED, after `threshold` consecutive `recordFailure` calls
the breaker is OPEN with `nextAttempt = tLast + timeout`; `canExecute` is
false (and the breaker unchanged) for every call before `nextAttempt`; the
first call at or after `nextAttempt` flips the state to HALF_OPEN and returns
true; `recordSuccess` in HALF_OPEN zeroes the failure count and closes. -/
theorem circuitBreaker_lifecycle (threshold : ℕ) (timeout t0 tLast : ℤ)
    (ts : List ℤ) (cbOpen : CircuitBreaker)
    (hlen : ts.length + 1 = threshold)
    (hcb : cbOpen =
      ((CircuitBreaker.init threshold timeout t0).recordFailures ts).recordFailure
        tLast) :
    cbOpen.state = .OPEN ∧
    cbOpen.nextAttempt = tLast + timeout ∧
    (∀ now : ℤ, now < tLast + timeout →
      cbOpen.canExecute now = (false, cbOpen)) ∧
    (∀ now : ℤ, tLast + timeout ≤ now →
      cbOpen.canExecute now = (true, { cbOpen with state := .HALF_OPEN })) ∧
    (∀ cb : CircuitBreaker, cb.state = .HALF_OPEN →
      cb.recordSuccess = { cb with failures := 0, state := .CLOSED }) := by
  have hbelow := recordFailures_below ts (CircuitBreaker.init threshold timeout t0)
    rfl (by simp [CircuitBreaker.init]; omega)
  set cb1 := (CircuitBreaker.init threshold timeout t0).recordFailures ts with hcb1
  have hthr1 : cb1.threshold = threshold := hbelow.2.2.1
  have htmo1 : cb1.timeout = timeout := hbelow.2.2.2
  have hfail1 : cb1.failures = ts.length := by
    have := hbelow.2.1
    simpa [CircuitBreaker.init] using this
  have hopen : cbOpen = { cb1 with
      failures := cb1.failures + 1
      lastFailure := some tLast
      state := .OPEN
      nextAttempt := tLast + cb1.timeout } := by
    rw [hcb]
    show cb1.recordFailure tLast = _
    rw [CircuitBreaker.recordFailure, if_pos (by omega)]
  have hstate : cbOpen.state = .OPEN := by rw [hopen]
  have hnext : cbOpen.nextAttempt = tLast + timeout := by rw [hopen, htmo1]
  refine ⟨hstate, hnext, ?_, ?_, ?_⟩
  · intro now hlt
    rw [CircuitBreaker.canExecute]
    split
    · simp_all
    · rw [if_neg (by omega)]
    · simp_all
  · intro now hge
    rw [CircuitBreaker.canExecute]
    split
    · simp_all
    · rw [if_pos (by omega)]
    · simp_all
  · intro cb hho
    rw [CircuitBreaker.recordSuccess, if_pos hho]

/-- C4 witness: a concrete run with threshold 2, timeout 100. -/
theorem circuitBreaker_lifecycle_witness :
    (((CircuitBreaker.init 2 100 0).recordFailures [5]).recordFailure 9).state =
      .OPEN ∧
    (((CircuitBreaker.init 2 100 0).recordFailures [5]).recordFailure 9).canExecute
      50 =
      (false, ((CircuitBreaker.init 2 100 0).recordFailures [5]).recordFailure 9) := by
  have h := circuitBreaker_lifecycle 2 100 0 9 [5]
    (((CircuitBreaker.init 2 100 0).recordFailures [5]).recordFailure 9)
    (by decide) rfl
  exact ⟨h.1, h.2.2.1 50 (by decide)⟩

/-- C1 counterexample: a 404 response is a 4xx client error, yet
`PolymarketAPI.request` retries after it (two attempts are executed and the
second one's value is returned instead of the error propagating), and it does
count the failure toward the circuit breaker (`recordFailure` stamps
`lastFailure`). -/
theorem request_404_retried_and_counted :
    (request (fun i => if i = 0 then .failure (some 404) else .success 7)
      (fun _ => 50) (CircuitBreaker.init 5 60000 0) 10 3).2.2 = 2 ∧
    (request (fun i => if i = 0 then .failure (some 404) else .success 7)
      (fun _ => 50) (CircuitBreaker.init 5 60000 0) 10 3).1 = .ok 7 ∧
    (request (fun i => if i = 0 then .failure (some 404) else .success 7)
      (fun _ => 50) (CircuitBreaker.init 5 60000 0) 10 3).2.1.lastFailure =
      some 50 := by
  decide

/-- C1 amended: only the statuses 400, 401 and 403 are treated as
non-retryable client errors: for those, `request` propagates the error
immediately after a single attempt and leaves the breaker untouched (no
`recordFailure`).  Any other failure — including other 4xx statuses — has
`recordFailure` applied and, when retries remain, a further attempt made. -/
theorem request_clientError_behavior :
    (∀ (sc : ℕ), (sc = 400 ∨ sc = 401 ∨ sc = 403) →
      ∀ (outcomes : ℕ → ReqOutcome) (times : ℕ → ℤ) (cb : CircuitBreaker)
        (now : ℤ) (maxRetries : ℕ),
        outcomes 0 = .failure (some sc) → cb.state = .CLOSED →
        request outcomes times cb now maxRetries = (.err (some sc), cb, 1)) ∧
    (∀ (sc : Option ℕ), nonRetryable sc = false →
      ∀ (outcomes : ℕ → ReqOutcome) (times : ℕ → ℤ) (cb : CircuitBreaker)
        (attempt r : ℕ),
        outcomes attempt = .failure sc →
        requestLoop outcomes times (r + 1) cb attempt =
          ((requestLoop outcomes times r (cb.recordFailure (times attempt))
              (attempt + 1)).1,
           (requestLoop outcomes times r (cb.recordFailure (times attempt))
              (attempt + 1)).2.1,
           (requestLoop outcomes times r (cb.recordFailure (times attempt))
              (attempt + 1)).2.2 + 1)) := by
  constructor
  · intro sc hsc outcomes times cb now maxRetries h0 hclosed
    have hnr : nonRetryable (some sc) = true := by
      rcases hsc with h | h | h <;> simp [nonRetryable, h]
    have hgate : cb.canExecute now = (true, cb) := by
      rw [CircuitBreaker.canExecute]
      split
      · rfl
      · simp_all
      · rfl
    rw [request, hgate]
    show requestLoop outcomes times maxRetries cb 0 = (.err (some sc), cb, 1)
    cases maxRetries with
    | zero => rw [requestLoop, h0]; simp [hnr]
    | succ r => rw [requestLoop, h0]; simp [hnr]
  · intro sc hnr outcomes times cb attempt r hatt
    rw [requestLoop, hatt]
    simp [hnr]

/-- C1 amended-claim witness: a concrete 401 propagates at once with the
breaker unchanged. -/
theorem request_clientError_behavior_witness :
    request (fun _ => .failure (some 401)) (fun _ => 50)
      (CircuitBreaker.init 5 60000 0) 10 3 =
      (.err (some 401), CircuitBreaker.init 5 60000 0, 1) :=
  request_clientError_behavior.1 401 (by simp)
    (fun _ => .failure (some 401)) (fun _ => 50)
    (CircuitBreaker.init 5 60000 0) 10 3 rfl rfl

/-- C3 counterexample: `AlertManager.persistHistory` writes the serialized
history directly to the target path with no temp file and no rename, so a
crash mid-write can leave the alert-history file holding a strict prefix of
the new content — neither the previous valid content nor the new one. -/
theorem persistHistory_partial_write_observable :
    (setA [("alert_history.json", ("OLD").data)] "alert_history.json"
        (("NEWCONTENT").data.take 3)) ∈
      crashStates [("alert_history.json", ("OLD").data)]
        (persistHistoryOps "alert_history.json" (("NEWCONTENT").data)) ∧
    lookupA
      (setA [("alert_history.json", ("OLD").data)] "alert_history.json"
        (("NEWCONTENT").data.take 3)) "alert_history.json" =
      some (("NEW").data) ∧
    ("NEW").data ≠ ("OLD").data ∧
    ("NEW").data ≠ ("NEWCONTENT").data := by
  decide

/-- C3 amended: the positions snapshot really is written
temp-file-then-rename, and that sequence is atomic — at every crash point
the target file holds either its previous content or the complete new
content, never a partial write.  (The alert-history snapshot is not written
this way; see the counterexample.) -/
theorem savePositions_atomic (fs : FS) (target stamp : String)
    (content : List Char) :
    ∀ fs' ∈ crashStates fs (savePositionsOps target stamp content),
      lookupA fs' target = lookupA fs target ∨
      lookupA fs' target = some content := by
  intro fs' hmem
  have hne := tmpName_ne target stamp
  simp only [savePositionsOps, crashStates, applyOp, List.cons_append,
    List.nil_append, List.mem_cons, List.mem_append, List.mem_map,
    List.mem_range, List.not_mem_nil, or_false] at hmem
  rcases hmem with rfl | ⟨k, _, rfl⟩ | rfl | rfl
  · left; rfl
  · left; exact lookupA_setA_ne fs (tmpName target stamp) target _ hne
  · left; exact lookupA_setA_ne fs (tmpName target stamp) target _ hne
  · right
    rw [lookupA_setA_self]
    rw [lookupA_setA_self]

/-- C3 witness: instantiating atomicity at a concrete run — the completed
write leaves the new content at the target. -/
theorem savePositions_atomic_witness :
    lookupA
      (applyOp (applyOp [("positions.json", ("OLD").data)]
        (.write (tmpName "positions.json" "s1") (("NEW").data)))
        (.rename (tmpName "positions.json" "s1") "positions.json"))
      "positions.json" =
      lookupA [("positions.json", ("OLD").data)] "positions.json" ∨
    lookupA
      (applyOp (applyOp [("positions.json", ("OLD").data)]
        (.write (tmpName "positions.json" "s1") (("NEW").data)))
        (.rename (tmpName "positions.json" "s1") "positions.json"))
      "positions.json" = some (("NEW").data) :=
  savePositions_atomic [("positions.json", ("OLD").data)] "positions.json"
    "s1" (("NEW").data)
    (applyOp (applyOp [("positions.json", ("OLD").data)]
      (.write (tmpName "positions.json" "s1") (("NEW").data)))
      (.rename (tmpName "positions.json" "s1") "positions.json"))
    (by decide)

/-- C5: `shouldSendAlert` returns `shouldSend = true` exactly when the
fingerprint was never recorded or was last recorded more than the dedup
window ago (recorded times are positive in every real execution, as
`Date.now()` values), recording the new send time in the same step; firing
the same (market, type, severity) alert twice within the window produces
exactly one AlertRecord and one webhook dispatch, and firing it again after
the window elapses produces a second of each. -/
theorem shouldSendAlert_dedup :
    (∀ (s : AlertManagerState) (p : PosRef) (a : AlertInfo) (now : ℤ),
      lookupA s.alertHistory (generateFingerprint p a) = none →
      shouldSendAlert s p a now =
        ((true, generateFingerprint p a),
         { s with alertHistory := setA s.alertHistory (generateFingerprint p a) now })) ∧
    (∀ (s : AlertManagerState) (p : PosRef) (a : AlertInfo) (now t : ℤ),
      lookupA s.alertHistory (generateFingerprint p a) = some t → 0 < t →
      s.deduplicationWindow < now - t →
      shouldSendAlert s p a now =
        ((true, generateFingerprint p a),
         { s with alertHistory := setA s.alertHistory (generateFingerprint p a) now })) ∧
    (∀ (s : AlertManagerState) (p : PosRef) (a : AlertInfo) (now t : ℤ),
      lookupA s.alertHistory (generateFingerprint p a) = some t → 0 < t →
      now - t ≤ s.deduplicationWindow →
      shouldSendAlert s p a now = ((false, generateFingerprint p a), s)) ∧
    (∀ (s : AlertManagerState) (p : PosRef) (a : AlertInfo) (t1 t2 t3 : ℤ),
      lookupA s.alertHistory (generateFingerprint p a) = none →
      0 < t1 → t2 - t1 ≤ s.deduplicationWindow →
      s.deduplicationWindow < t3 - t1 →
      (processAlerts s p [a] t1).records = 1 ∧
      (processAlerts s p [a] t1).dispatches = 1 ∧
      (processAlerts (processAlerts s p [a] t1).state p [a] t2).records = 0 ∧
      (processAlerts (processAlerts s p [a] t1).state p [a] t2).dispatches
        = 0 ∧
      (processAlerts (processAlerts s p [a] t1).state p [a] t2).state =
        (processAlerts s p [a] t1).state ∧
      (processAlerts (processAlerts s p [a] t1).state p [a] t3).records = 1 ∧
      (processAlerts (processAlerts s p [a] t1).state p [a] t3).dispatches
        = 1) := by
  have hfresh : ∀ (s : AlertManagerState) (p : PosRef) (a : AlertInfo)
      (now : ℤ),
      lookupA s.alertHistory (generateFingerprint p a) = none →
      shouldSendAlert s p a now =
        ((true, generateFingerprint p a),
         { s with alertHistory := setA s.alertHistory (generateFingerprint p a) now }) := by
    intro s p a now h
    simp [shouldSendAlert, h]
  have hstale : ∀ (s : AlertManagerState) (p : PosRef) (a : AlertInfo)
      (now t : ℤ),
      lookupA s.alertHistory (generateFingerprint p a) = some t → 0 < t →
      s.deduplicationWindow < now - t →
      shouldSendAlert s p a now =
        ((true, generateFingerprint p a),
         { s with alertHistory := setA s.alertHistory (generateFingerprint p a) now }) := by
    intro s p a now t h hpos hwin
    rw [shouldSendAlert]
    simp only [h]
    rw [if_pos (Or.inr hwin)]
  have hdup : ∀ (s : AlertManagerState) (p : PosRef) (a : AlertInfo)
      (now t : ℤ),
      lookupA s.alertHistory (generateFingerprint p a) = some t → 0 < t →
      now - t ≤ s.deduplicationWindow →
      shouldSendAlert s p a now = ((false, generateFingerprint p a), s) := by
    intro s p a now t h hpos hwin
    rw [shouldSendAlert]
    simp only [h]
    rw [if_neg (by omega)]
  refine ⟨hfresh, hstale, hdup, ?_⟩
  intro s p a t1 t2 t3 h0 hpos h12 h13
  have e1 : processAlerts s p [a] t1 =
      { sent := [a], records := 1, dispatches := 1
        state := { s with alertHistory := setA s.alertHistory (generateFingerprint p a) t1 } } := by
    simp [processAlerts, hfresh s p a t1 h0]
  have hlook : lookupA
      (setA s.alertHistory (generateFingerprint p a) t1)
      (generateFingerprint p a) = some t1 := lookupA_setA_self _ _ _
  have e2 : processAlerts (processAlerts s p [a] t1).state p [a] t2 =
      { sent := [], records := 0, dispatches := 0
        state := (processAlerts s p [a] t1).state } := by
    rw [e1]
    simp [processAlerts,
      hdup ({ s with alertHistory := setA s.alertHistory (generateFingerprint p a) t1 })
        p a t2 t1 hlook hpos (by simpa using h12)]
  have e3 := hstale ({ s with alertHistory := setA s.alertHistory (generateFingerprint p a) t1 }) p a t3 t1 hlook
      hpos (by simpa using h13)
  refine ⟨by rw [e1], by rw [e1], by rw [e2], by rw [e2], by rw [e2], ?_, ?_⟩
  · rw [e1]
    simp [processAlerts, e3]
  · rw [e1]
    simp [processAlerts, e3]

/-- C5 witness: a fresh PRICE_MOVE/HIGH alert sent at `t = 1000`, repeated
at `t = 2000` (suppressed), and again at `t = 4000000` (sent), with the
default 1-hour window. -/
theorem shouldSendAlert_dedup_witness :
    (processAlerts ⟨[], 3600000⟩ ⟨"m", none⟩ [⟨"PRICE_MOVE", "HIGH"⟩]
      1000).records = 1 ∧
    (processAlerts
      (processAlerts ⟨[], 3600000⟩ ⟨"m", none⟩ [⟨"PRICE_MOVE", "HIGH"⟩]
        1000).state
      ⟨"m", none⟩ [⟨"PRICE_MOVE", "HIGH"⟩] 2000).records = 0 ∧
    (processAlerts
      (processAlerts ⟨[], 3600000⟩ ⟨"m", none⟩ [⟨"PRICE_MOVE", "HIGH"⟩]
        1000).state
      ⟨"m", none⟩ [⟨"PRICE_MOVE", "HIGH"⟩] 4000000).records = 1 := by
  have h := shouldSendAlert_dedup.2.2.2 ⟨[], 3600000⟩ ⟨"m", none⟩
    ⟨"PRICE_MOVE", "HIGH"⟩ 1000 2000 4000000 rfl (by decide) (by decide)
    (by decide)
  exact ⟨h.1, h.2.2.1, h.2.2.2.2.2.1⟩

/-- C8: while a fetch for a key is pending (and the key is uncached), every
`getCached` call joins the same pending promise without invoking `fetchFn`;
N concurrent calls for an uncached, unpending key invoke `fetchFn` exactly
once, with every later caller handed the first caller's promise id (so a
failure of that one promise reaches all waiters); settling the fetch with an
error clears the pending marker and caches nothing. -/
theorem getCached_stampede :
    (∀ (s : CacheState) (key : String) (ttl now : ℤ) (pid : ℕ),
      lookupA s.cache key = none → lookupA s.pendingRequests key = some pid →
      getCached s key ttl now = (.awaitPending pid, s)) ∧
    (∀ (s : CacheState) (key : String) (ttl now : ℤ),
      lookupA s.cache key = none → lookupA s.pendingRequests key = none →
      getCached s key ttl now =
        (.startFetch s.nextPromiseId,
         { s with
           pendingRequests := setA s.pendingRequests key s.nextPromiseId
           nextPromiseId := s.nextPromiseId + 1
           fetchCount := s.fetchCount + 1 })) ∧
    (∀ (s : CacheState) (key : String) (ttl : ℤ) (t : ℤ) (ts : List ℤ),
      lookupA s.cache key = none → lookupA s.pendingRequests key = none →
      (callSeq key ttl s (t :: ts)).1 =
        .startFetch s.nextPromiseId ::
          ts.map (fun _ => .awaitPending s.nextPromiseId) ∧
      (callSeq key ttl s (t :: ts)).2.fetchCount = s.fetchCount + 1) ∧
    (∀ (s : CacheState) (key e : String) (now : ℤ),
      (fetchSettle s key (.error e) now).cache = s.cache ∧
      lookupA (fetchSettle s key (.error e) now).pendingRequests key =
        none) := by
  have hjoin : ∀ (s : CacheState) (key : String) (ttl now : ℤ) (pid : ℕ),
      lookupA s.cache key = none → lookupA s.pendingRequests key = some pid →
      getCached s key ttl now = (.awaitPending pid, s) := by
    intro s key ttl now pid hc hp
    simp [getCached, hc, hp]
  have hstart : ∀ (s : CacheState) (key : String) (ttl now : ℤ),
      lookupA s.cache key = none → lookupA s.pendingRequests key = none →
      getCached s key ttl now =
        (.startFetch s.nextPromiseId,
         { s with
           pendingRequests := setA s.pendingRequests key s.nextPromiseId
           nextPromiseId := s.nextPromiseId + 1
           fetchCount := s.fetchCount + 1 }) := by
    intro s key ttl now hc hp
    simp [getCached, hc, hp]
  refine ⟨hjoin, hstart, ?_, ?_⟩
  · intro s key ttl t ts hc hp
    have hrest := callSeq_pending key ttl ts
      ({ s with
         pendingRequests := setA s.pendingRequests key s.nextPromiseId
         nextPromiseId := s.nextPromiseId + 1
         fetchCount := s.fetchCount + 1 })
      s.nextPromiseId hc (lookupA_setA_self _ _ _)
    constructor
    · show (callSeq key ttl s (t :: ts)).1 = _
      rw [callSeq]
      simp [hstart s key ttl t hc hp, hrest]
    · show (callSeq key ttl s (t :: ts)).2.fetchCount = _
      rw [callSeq]
      simp [hstart s key ttl t hc hp, hrest]
  · intro s key e now
    exact ⟨rfl, lookupA_removeA_self _ _⟩

/-- C8 witness: three concurrent calls for an uncached key start exactly one
fetch and share promise id 0. -/
theorem getCached_stampede_witness :
    (callSeq "k" 30000 ⟨[], [], 0, 0⟩ [1, 2, 3]).1 =
      [.startFetch 0, .awaitPending 0, .awaitPending 0] ∧
    (callSeq "k" 30000 ⟨[], [], 0, 0⟩ [1, 2, 3]).2.fetchCount = 1 := by
  have h := getCached_stampede.2.2.1 ⟨[], [], 0, 0⟩ "k" 30000 1 [2, 3] rfl rfl
  exact ⟨h.1, h.2⟩

/-- C6: `updateAllPositions` refreshes only the active positions and
returns (and persists) one record per input position: the output has the
input's length, every non-active position passes through unchanged, every
active position appears as its refresh result, and an active position whose
refresh fails appears as the existing record annotated with `update_error`
and a fresh `last_updated` — no exception escapes and no position is
dropped. -/
theorem updateAllPositions_frame (ps : List Position)
    (refresh : Position → Except String UpdateData) (now : ℤ) :
    (updateAllPositions ps refresh now).length = ps.length ∧
    (∀ p ∈ ps, ¬ p.status = "active" →
      p ∈ updateAllPositions ps refresh now) ∧
    (∀ p ∈ ps, p.status = "active" →
      performUpdate p (refresh p) now ∈ updateAllPositions ps refresh now) ∧
    (∀ p ∈ ps, p.status = "active" → ∀ e, refresh p = .error e →
      { p with update_error := some e, last_updated := now } ∈
        updateAllPositions ps refresh now) := by
  have hsplit : ∀ l : List Position,
      (l.filter (fun p => p.status = "active")).length +
        (l.filter (fun p => ¬ p.status = "active")).length = l.length := by
    intro l
    induction l with
    | nil => rfl
    | cons q qs ih =>
      by_cases hq : q.status = "active" <;>
        simp_all [List.filter_cons] <;> omega
  refine ⟨?_, ?_, ?_, ?_⟩
  · rw [updateAllPositions, List.length_append, List.length_map]
    exact hsplit ps
  · intro p hp hna
    apply List.mem_append_right
    exact List.mem_filter.mpr ⟨hp, by simpa using hna⟩
  · intro p hp ha
    apply List.mem_append_left
    exact List.mem_map_of_mem _ (List.mem_filter.mpr ⟨hp, by simpa using ha⟩)
  · intro p hp ha e he
    apply List.mem_append_left
    have : performUpdate p (refresh p) now =
        { p with update_error := some e, last_updated := now } := by
      rw [he]; rfl
    rw [← this]
    exact List.mem_map_of_mem _ (List.mem_filter.mpr ⟨hp, by simpa using ha⟩)

/-- C6 witness: a batch of one active position whose refresh fails and one
closed position — the closed one passes through, the failing one is
annotated, nothing is dropped. -/
theorem updateAllPositions_frame_witness :
    (⟨"id2", "m2", "NO", 50, 40, 2/5, "closed", none, 0, none, none, none,
        none, none, none⟩ : Position) ∈
      updateAllPositions
        [⟨"id1", "m1", "YES", 100, 30, 3/10, "active", none, 0, none, none,
          none, none, none, none⟩,
         ⟨"id2", "m2", "NO", 50, 40, 2/5, "closed", none, 0, none, none,
          none, none, none, none⟩]
        (fun _ => .error "boom") 5 ∧
    (⟨"id1", "m1", "YES", 100, 30, 3/10, "active", some "boom", 5, none,
        none, none, none, none, none⟩ : Position) ∈
      updateAllPositions
        [⟨"id1", "m1", "YES", 100, 30, 3/10, "active", none, 0, none, none,
          none, none, none, none⟩,
         ⟨"id2", "m2", "NO", 50, 40, 2/5, "closed", none, 0, none, none,
          none, none, none, none⟩]
        (fun _ => .error "boom") 5 := by
  have h := updateAllPositions_frame
    [⟨"id1", "m1", "YES", 100, 30, 3/10, "active", none, 0, none, none,
      none, none, none, none⟩,
     ⟨"id2", "m2", "NO", 50, 40, 2/5, "closed", none, 0, none, none, none,
      none, none, none⟩]
    (fun _ => .error "boom") 5
  exact ⟨h.2.1
      ⟨"id2", "m2", "NO", 50, 40, 2/5, "closed", none, 0, none, none, none,
        none, none, none⟩ (by simp) (by decide),
    h.2.2.2
      ⟨"id1", "m1", "YES", 100, 30, 3/10, "active", none, 0, none, none,
        none, none, none, none⟩ (by simp) (by decide) "boom" rfl⟩

/-- C9: position status is monotonic.  `addPosition` appends a new record
with status "active" and keeps every existing record; `closePosition` only
rewrites an active record (every closed record survives unchanged) and the
rewritten record has status "closed"; a per-position refresh preserves the
status field; `updateAllPositions` keeps every closed record unchanged.  So
no operation ever turns a "closed" record back to "active". -/
theorem status_monotone :
    (∀ (ps : List Position) (pd : NewPositionData) (genId : String)
        (now : ℤ),
      (addPosition ps pd genId now).2.status = "active" ∧
      ∀ p ∈ ps, p ∈ (addPosition ps pd genId now).1) ∧
    (∀ (ps ps' : List Position) (market : String) (ed : ExitData) (now : ℤ),
      closePosition ps market ed now = .ok ps' →
      ∀ p ∈ ps, p.status = "closed" → p ∈ ps') ∧
    (∀ (p : Position) (ed : ExitData) (now : ℤ),
      (closedRecord p ed now).status = "closed") ∧
    (∀ (p : Position) (outcome : Except String UpdateData) (now : ℤ),
      (performUpdate p outcome now).status = p.status) ∧
    (∀ (ps : List Position) (refresh : Position → Except String UpdateData)
        (now : ℤ),
      ∀ p ∈ ps, p.status = "closed" →
        p ∈ updateAllPositions ps refresh now) := by
  refine ⟨?_, ?_, ?_, ?_, ?_⟩
  · intro ps pd genId now
    exact ⟨rfl, fun p hp => List.mem_append_left _ hp⟩
  · intro ps
    induction ps with
    | nil => intro ps' market ed now h; rw [closePosition, closeFirst] at h; cases h
    | cons q qs ih =>
      intro ps' market ed now h p hp hclosed
      rw [closePosition, closeFirst] at h
      by_cases hq : q.market = market ∧ q.status = "active"
      · rw [if_pos hq] at h
        cases h
        rcases List.mem_cons.mp hp with rfl | hmem
        · exact absurd hq.2 (by rw [hclosed]; decide)
        · exact List.mem_cons_of_mem _ hmem
      · rw [if_neg hq] at h
        cases hrec : closeFirst market ed now qs with
        | error e => rw [hrec] at h; cases h
        | ok l =>
          rw [hrec] at h
          cases h
          rcases List.mem_cons.mp hp with rfl | hmem
          · exact List.mem_cons_self _ _
          · exact List.mem_cons_of_mem _
              (ih l market ed now (by rw [closePosition, hrec]) p hmem hclosed)
  · intro p ed now
    rfl
  · intro p outcome now
    cases outcome <;> rfl
  · intro ps refresh now p hp hclosed
    apply List.mem_append_right
    exact List.mem_filter.mpr ⟨hp, by simp [hclosed]⟩

/-- C9 witness: adding a position to a list containing a closed record
keeps the closed record, and closing the active one leaves the closed one
untouched while refresh preserves status. -/
theorem status_monotone_witness :
    ((addPosition [] ⟨"m1", "yes", 100, 30, none⟩ "id1" 0).2.status =
      "active") ∧
    ((⟨"id0", "m0", "YES", 10, 20, 1/5, "closed", none, 0, none, none, none,
        none, none, none⟩ : Position) ∈
      (addPosition
        [⟨"id0", "m0", "YES", 10, 20, 1/5, "closed", none, 0, none, none,
          none, none, none, none⟩]
        ⟨"m1", "yes", 100, 30, none⟩ "id1" 0).1) ∧
    ((performUpdate
      ⟨"id0", "m0", "YES", 10, 20, 1/5, "closed", none, 0, none, none, none,
        none, none, none⟩ (.ok ⟨1/2, 5⟩) 7).status = "closed") := by
  refine ⟨(status_monotone.1 [] ⟨"m1", "yes", 100, 30, none⟩ "id1" 0).1,
    (status_monotone.1 _ ⟨"m1", "yes", 100, 30, none⟩ "id1" 0).2 _
      (by simp), ?_⟩
  rw [status_monotone.2.2.2.1
    ⟨"id0", "m0", "YES", 10, 20, 1/5, "closed", none, 0, none, none, none,
      none, none, none⟩ (.ok ⟨1/2, 5⟩) 7]

/-- C10: `closePosition` closes the first active position for the market
and records the linear realized PnL `(exitPrice - entry_price) * amount`
for YES (negated for NO) with `realized_pnl_pct = pnl / amount * 100` —
not the shares-based formula of `calculatePnL`: for YES, entry 0.30, exit
0.40, amount 100 the realized PnL is 10 while the shares-based unrealized
PnL at price 0.40 is 100/3 (+33.33). -/
theorem closePosition_realized_pnl :
    (∀ (p : Position) (ed : ExitData) (now : ℤ), p.position = "YES" →
      (closedRecord p ed now).realized_pnl =
        some ((exitPriceOf ed - p.entry_price) * p.amount) ∧
      (closedRecord p ed now).realized_pnl_pct =
        some ((exitPriceOf ed - p.entry_price) * p.amount / p.amount *
          100)) ∧
    (∀ (p : Position) (ed : ExitData) (now : ℤ), p.position = "NO" →
      (closedRecord p ed now).realized_pnl =
        some (-((exitPriceOf ed - p.entry_price) * p.amount)) ∧
      (closedRecord p ed now).realized_pnl_pct =
        some (-((exitPriceOf ed - p.entry_price) * p.amount) / p.amount *
          100)) ∧
    (∀ (pre post : List Position) (p : Position) (market : String)
        (ed : ExitData) (now : ℤ),
      (∀ q ∈ pre, ¬ (q.market = market ∧ q.status = "active")) →
      p.market = market → p.status = "active" →
      closePosition (pre ++ p :: post) market ed now =
        .ok (pre ++ closedRecord p ed now :: post)) ∧
    ((closedRecord
        ⟨"id1", "m1", "YES", 100, 30, 3/10, "active", none, 0, none, none,
          none, none, none, none⟩
        ⟨some (2/5), 40⟩ 5).realized_pnl = some 10 ∧
      (calculatePnL (3/10) (2/5) "YES" 100).pnl = 100 / 3 ∧
      (10 : ℚ) ≠ 100 / 3) := by
  have hyes : ∀ (p : Position) (ed : ExitData) (now : ℤ),
      p.position = "YES" →
      (closedRecord p ed now).realized_pnl =
        some ((exitPriceOf ed - p.entry_price) * p.amount) ∧
      (closedRecord p ed now).realized_pnl_pct =
        some ((exitPriceOf ed - p.entry_price) * p.amount / p.amount *
          100) := by
    intro p ed now hp
    rw [closedRecord]
    constructor
    · show some ((exitPriceOf ed - p.entry_price) * p.amount *
        (if p.position = "YES" then 1 else -1)) = _
      rw [if_pos hp]
      ring_nf
    · show some ((exitPriceOf ed - p.entry_price) * p.amount *
        (if p.position = "YES" then 1 else -1) / p.amount * 100) = _
      rw [if_pos hp]
      ring_nf
  refine ⟨hyes, ?_, ?_, ?_, ?_, ?_⟩
  · intro p ed now hp
    rw [closedRecord]
    have hne : ¬ p.position = "YES" := by rw [hp]; decide
    constructor
    · show some ((exitPriceOf ed - p.entry_price) * p.amount *
        (if p.position = "YES" then 1 else -1)) = _
      rw [if_neg hne]
      ring_nf
    · show some ((exitPriceOf ed - p.entry_price) * p.amount *
        (if p.position = "YES" then 1 else -1) / p.amount * 100) = _
      rw [if_neg hne]
      ring_nf
  · intro pre
    induction pre with
    | nil =>
      intro post p market ed now _ hm hs
      rw [closePosition, List.nil_append, closeFirst, if_pos ⟨hm, hs⟩,
        List.nil_append]
    | cons q pre ih =>
      intro post p market ed now hpre hm hs
      rw [closePosition, List.cons_append, closeFirst,
        if_neg (hpre q (List.mem_cons_self _ _))]
      have := ih post p market ed now
        (fun r hr => hpre r (List.mem_cons_of_mem _ hr)) hm hs
      rw [closePosition] at this
      rw [this]
      rfl
  · have h := hyes
      ⟨"id1", "m1", "YES", 100, 30, 3/10, "active", none, 0, none, none,
        none, none, none, none⟩ ⟨some (2/5), 40⟩ 5 rfl
    rw [h.1]
    norm_num [exitPriceOf]
  · rw [calculatePnL, lowerStr_YES]
    norm_num
  · norm_num

/-- C10 witness: the generic YES formula instantiated at entry 0.30, exit
0.40, amount 100 gives realized PnL 10. -/
theorem closePosition_realized_pnl_witness :
    (closedRecord
      ⟨"idw", "mw", "YES", 100, 30, 3/10, "active", none, 0, none, none,
        none, none, none, none⟩
      ⟨some (2/5), 40⟩ 9).realized_pnl =
      some ((exitPriceOf ⟨some (2/5), 40⟩ - 3/10) * 100) := by
  exact (closePosition_realized_pnl.1
    ⟨"idw", "mw", "YES", 100, 30, 3/10, "active", none, 0, none, none,
      none, none, none, none⟩
    ⟨some (2/5), 40⟩ 9 rfl).1

/-- C7: the fuzzy resolution behaves exactly as the claim's deterministic
scoring describes — question +10/term, else description +5, else
partial match in the combined text (+1 per the spec; the source writes +2
there, but that branch is unreachable because search terms contain no
whitespace and the combined text joins question and description with a
space, so the two scorings are extensionally equal) — plus accepting-orders
+15, not-closed +10, the cumulative liquidity and volume tiers; the best
scorer is returned only when its score reaches the configurable minimum
(`minScore || 10`), and it really is a maximum over the unskipped
candidates; otherwise resolution returns no match. -/
theorem findMarketByKeywords_spec :
    (∀ (query : List Char) (markets : List Market) (minScore : Option ℕ)
        (incl : Bool),
      findMarketByKeywords query markets minScore incl =
        findMarketByKeywordsSpec query markets minScore incl) ∧
    (∀ (query : List Char) (markets : List Market) (minScore : Option ℕ)
        (incl : Bool) (m : Market),
      findMarketByKeywords query markets minScore incl = some m →
      resolveMinScore minScore ≤ scoreMarket m (searchTermsOf query) ∧
      ∀ m' ∈ markets, (m'.archived && !incl) = false →
        scoreMarket m' (searchTermsOf query) ≤
          scoreMarket m (searchTermsOf query)) ∧
    (∀ (query : List Char) (markets : List Market) (minScore : Option ℕ)
        (incl : Bool),
      (findBest (searchTermsOf query) incl markets).2 <
        resolveMinScore minScore →
      findMarketByKeywords query markets minScore incl = none) := by
  refine ⟨?_, ?_, ?_⟩
  · intro query markets minScore incl
    rw [findMarketByKeywords, findMarketByKeywordsSpec, findBest_eq_spec]
  · intro query markets minScore incl m h
    rw [findMarketByKeywords] at h
    split at h
    · next m1 hb =>
      split at h
      · next hmin =>
        injection h with hm1
        rw [hm1] at hb
        rw [findBest] at hb hmin
        have hscore := foldl_findBest_inv (searchTermsOf query) incl markets
          (none, 0) (by intro m' hm'; cases hm') m hb
        constructor
        · rw [← hscore]
          exact hmin
        · intro m' hm' hskip
          rw [← hscore]
          exact foldl_findBest_ge (searchTermsOf query) incl markets
            (none, 0) m' hm' hskip
      · cases h
    · cases h
  · intro query markets minScore incl hlt
    rw [findMarketByKeywords]
    split
    · next m1 hb => rw [if_neg (not_le.mpr hlt)]
    · rfl

/-- C7 witness: the query "bitcoin etf" against a single live market whose
question contains both terms scores 10+10+15+10+5+3 = 53 ≥ 10 and is
selected; the theorem then bounds the minimum by its score. -/
theorem findMarketByKeywords_spec_witness :
    resolveMinScore none ≤
      scoreMarket
        ⟨some (("will a bitcoin etf be approved").data), none, false, false,
          true, some 20000, some 5000⟩
        (searchTermsOf (("bitcoin etf").data)) :=
  (findMarketByKeywords_spec.2.1 (("bitcoin etf").data)
    [⟨some (("will a bitcoin etf be approved").data), none, false, false,
      true, some 20000, some 5000⟩]
    none false
    ⟨some (("will a bitcoin etf be approved").data), none, false, false,
      true, some 20000, some 5000⟩
    (by decide)).1

end Polyscope
